import Mathlib

/-!
# Verification of the BPE tokenizer of `byte_pair_encoding.py`

This file is a shallow embedding of the `BPETokenizer` class: Python byte
strings become `List Nat` (each element a byte value), Python `dict`s become
insertion-ordered association lists (Python 3.7+ dictionaries preserve
insertion order, and `collections.Counter` iterates its keys in first-insertion
order), and the training loop becomes a fuel-indexed recursion whose fuel is
the loop bound `vocab_size - 256`.

The definitions mirror the source methods:
* `counterAdd` / `getStats`  — `_get_stats` (`Counter(zip(ids, ids[1:]))`)
* `maxByCount`               — `max(stats.items(), key=lambda x: x[1])`
* `mergeSeq` / `mergeGo`     — `_merge` (list-recursive form and the literal
                               index-based while loop; proved equal below)
* `dictInsert` / `dictFind?` — Python dict assignment / lookup
* `BPETokenizer.train`       — `train`
-/

set_option maxHeartbeats 1000000
set_option maxRecDepth 4000
set_option linter.unnecessarySimpa false
set_option linter.deprecated false

/-- One step of building a Python `Counter`: increment the count of `p`,
keeping the key at its first-insertion position, appending it if new. -/
def counterAdd (c : List ((Nat × Nat) × Nat)) (p : Nat × Nat) :
    List ((Nat × Nat) × Nat) :=
  match c with
  | [] => [(p, 1)]
  | (q, n) :: rest => if q = p then (q, n + 1) :: rest else (q, n) :: counterAdd rest p

/-- `zip(ids, ids[1:])`: the list of adjacent pairs of `ids`. -/
def zipPairs (ids : List Nat) : List (Nat × Nat) := ids.zip ids.tail

/-- `_get_stats`: `Counter(zip(ids, ids[1:]))` as an insertion-ordered
association list from pairs to counts. -/
def getStats (ids : List Nat) : List ((Nat × Nat) × Nat) :=
  (zipPairs ids).foldl counterAdd []

/-- Python's `max(stats.items(), key=lambda x: x[1])` over the insertion-ordered
items (`None` when empty, which the source guards by `if not stats: break`):
`max` keeps the current best and replaces it only on a strictly greater count,
so it returns the first item attaining the maximal count. -/
def maxByCount (stats : List ((Nat × Nat) × Nat)) : Option ((Nat × Nat) × Nat) :=
  match stats with
  | [] => none
  | x :: rest => some (rest.foldl (fun best y => if best.2 < y.2 then y else best) x)

/-- Python dict assignment `d[k] = v`: overwrite in place if the key exists
(keeping its position), append otherwise. -/
def dictInsert {α β : Type} [DecidableEq α] (d : List (α × β)) (k : α) (v : β) :
    List (α × β) :=
  match d with
  | [] => [(k, v)]
  | (k', v') :: rest =>
    if k' = k then (k', v) :: rest else (k', v') :: dictInsert rest k v

/-- Python dict lookup `d[k]`, as an `Option` (the source only performs lookups
on keys that are present; this is proved below for every lookup it makes). -/
def dictFind? {α β : Type} [DecidableEq α] (d : List (α × β)) (k : α) : Option β :=
  match d with
  | [] => none
  | (k', v) :: rest => if k' = k then some v else dictFind? rest k

/-- `_merge`, in list-recursive form: scan left to right, emit `idx` and skip
two positions on a match of `pair`, emit the current element otherwise. -/
def mergeSeq (ids : List Nat) (pair : Nat × Nat) (idx : Nat) : List Nat :=
  match ids with
  | a :: b :: rest =>
    if (a, b) = pair then idx :: mergeSeq rest pair idx
    else a :: mergeSeq (b :: rest) pair idx
  | short => short

/-- `_merge`, as the literal `while i < length` loop of the source:
`i < length - 1 and (ids[i], ids[i+1]) == pair` emits `idx` and advances by 2,
otherwise it emits `ids[i]` and advances by 1. -/
def mergeGo (ids : List Nat) (pair : Nat × Nat) (idx : Nat) (i : Nat) : List Nat :=
  if h : i < ids.length then
    if h2 : i + 1 < ids.length then
      if (ids.get ⟨i, h⟩, ids.get ⟨i + 1, h2⟩) = pair then
        idx :: mergeGo ids pair idx (i + 2)
      else
        ids.get ⟨i, h⟩ :: mergeGo ids pair idx (i + 1)
    else
      ids.get ⟨i, h⟩ :: mergeGo ids pair idx (i + 1)
  else
    []
termination_by ids.length - i

/-- The tokenizer state: `vocab_size`, the `merges` dict and the `vocab` dict,
both as insertion-ordered association lists. -/
structure BPETokenizer where
  vocab_size : Nat
  merges : List ((Nat × Nat) × Nat)
  vocab : List (Nat × List Nat)
deriving DecidableEq, Repr

/-- `__init__`: stores `vocab_size` and creates empty `merges` and `vocab`.
The source performs no validation of `vocab_size`. -/
def bpeInit (vocab_size : Nat) : BPETokenizer := ⟨vocab_size, [], []⟩

/-- The error taxonomy of the specification's construction-time checks. -/
inductive BPEError : Type
  | invalidConfiguration
deriving DecidableEq

/-- `__init__` viewed as a fallible constructor (a Python constructor may
raise): the source contains no `raise`, so it always returns `ok`. -/
def bpeInitE (vocab_size : Nat) : Except BPEError BPETokenizer :=
  Except.ok (bpeInit vocab_size)

/-- `self.vocab = {i: bytes([i]) for i in range(256)}`. -/
def baseVocab : List (Nat × List Nat) := (List.range 256).map (fun i => (i, [i]))

/-- Total vocabulary lookup (defaulting to `[]`; all lookups the source makes
are on present keys, proved in the training invariant below). -/
def vocabGet (vocab : List (Nat × List Nat)) (k : Nat) : List Nat :=
  (dictFind? vocab k).getD []

/-- The training loop body of `train`: `fuel` iterations remain, `i` is the
current iteration index (`idx = 256 + i`); break when the stats are empty. -/
def trainGo (fuel i : Nat) (ids : List Nat) (merges : List ((Nat × Nat) × Nat))
    (vocab : List (Nat × List Nat)) :
    List Nat × List ((Nat × Nat) × Nat) × List (Nat × List Nat) :=
  match fuel with
  | 0 => (ids, merges, vocab)
  | fuel' + 1 =>
    match maxByCount (getStats ids) with
    | none => (ids, merges, vocab)
    | some (pair, _) =>
      let idx := 256 + i
      trainGo fuel' (i + 1) (mergeSeq ids pair idx) (dictInsert merges pair idx)
        (dictInsert vocab idx (vocabGet vocab pair.1 ++ vocabGet vocab pair.2))

/-- `train`: reset `vocab` to the 256 base entries, run up to
`vocab_size - 256` merge iterations on the corpus bytes, return the updated
tokenizer together with the final id sequence.  Note that the source resets
`self.vocab` but not `self.merges`, which persists across calls. -/
def BPETokenizer.train (tk : BPETokenizer) (corpus : List Nat) :
    BPETokenizer × List Nat :=
  let r := trainGo (tk.vocab_size - 256) 0 corpus tk.merges baseVocab
  (⟨tk.vocab_size, r.2.1, r.2.2⟩, r.1)

/-- Concatenation of the vocabulary entries of a sequence of ids (the byte
expansion of a symbol sequence). -/
def expand (vocab : List (Nat × List Nat)) (ids : List Nat) : List Nat :=
  ids.foldr (fun a acc => vocabGet vocab a ++ acc) []

/-- Formalisation of the specification's counting clause: the adjacent index
positions `(i, i+1)` at which the sequence holds the pair `p`. -/
def adjPositions (ids : List Nat) (p : Nat × Nat) : List Nat :=
  (List.range (ids.length - 1)).filter fun i =>
    decide (ids.get? i = some p.1 ∧ ids.get? (i + 1) = some p.2)

/-- Counter lookup as Python's `Counter.__getitem__` (0 for a missing key). -/
def counterGet (c : List ((Nat × Nat) × Nat)) (p : Nat × Nat) : Nat :=
  (dictFind? c p).getD 0

/-- The first coordinates are pairwise lexicographically ordered:
`(a, b) < (c, d)` iff `a < c`, or `a = c` and `b < d`. -/
def pairLexLt (p q : Nat × Nat) : Prop :=
  p.1 < q.1 ∨ (p.1 = q.1 ∧ p.2 < q.2)

instance (p q : Nat × Nat) : Decidable (pairLexLt p q) := by
  unfold pairLexLt; infer_instance

/-- The invariant maintained by the training loop of `train` when started on a
freshly constructed tokenizer: at iteration index `i` with current sequence
`ids`, recorded rules `merges` and vocabulary `vocab`,
* the vocabulary keys are exactly `0, …, 255 + i` (entries are only appended,
  never removed or overwritten),
* every base id maps to its single-byte sequence,
* every symbol in the working sequence has a vocabulary entry,
* exactly `i` rules are recorded, the `j`-th with `newId = 256 + j` and both
  pair components already present in the vocabulary as of step `j`,
* every recorded rule's id maps to the concatenation of the entries of its
  pair,
* no recorded pair still occurs adjacently in the working sequence, and
* the byte expansion of the working sequence is the original corpus. -/
structure TrainInv (corpus : List Nat) (i : Nat) (ids : List Nat)
    (merges : List ((Nat × Nat) × Nat)) (vocab : List (Nat × List Nat)) : Prop where
  vkeys : vocab.map Prod.fst = List.range (256 + i)
  vbase : ∀ id, id < 256 → dictFind? vocab id = some [id]
  idsLt : ∀ a ∈ ids, a < 256 + i
  mlen : merges.length = i
  mrules : ∀ j m, merges.get? j = some m →
    m.2 = 256 + j ∧ m.1.1 < 256 + j ∧ m.1.2 < 256 + j
  mvocab : ∀ p idx, (p, idx) ∈ merges →
    dictFind? vocab idx = some (vocabGet vocab p.1 ++ vocabGet vocab p.2)
  mnotin : ∀ p idx, (p, idx) ∈ merges → p ∉ zipPairs ids
  mexp : expand vocab ids = corpus

/-! ## Basic lemmas about the merge pass -/

/-- Induction principle following the recursion pattern of `mergeSeq`. -/
lemma list_pair_induction {P : List Nat → Prop} (h0 : P []) (h1 : ∀ a, P [a])
    (h2 : ∀ a b rest, P rest → P (b :: rest) → P (a :: b :: rest)) :
    ∀ ids, P ids := by
  have key : ∀ n ids, List.length ids ≤ n → P ids := by
    intro n
    induction n with
    | zero =>
      intro ids h
      cases ids with
      | nil => exact h0
      | cons a t => simp at h
    | succ n ih =>
      intro ids h
      match ids with
      | [] => exact h0
      | [a] => exact h1 a
      | a :: b :: rest =>
        simp only [List.length_cons] at h
        exact h2 a b rest (ih rest (by omega)) (ih (b :: rest) (by simp; omega))
  exact fun ids => key ids.length ids le_rfl

lemma mergeGo_eq_mergeSeq_drop (pair : Nat × Nat) (idx : Nat) :
    ∀ n (ids : List Nat) (i : Nat), ids.length - i ≤ n →
      mergeGo ids pair idx i = mergeSeq (ids.drop i) pair idx := by
  intro n
  induction n with
  | zero =>
    intro ids i h
    have hle : ids.length ≤ i := by omega
    rw [mergeGo]
    simp [Nat.not_lt.mpr hle, List.drop_eq_nil_of_le hle, mergeSeq]
  | succ n ih =>
    intro ids i h
    by_cases h1 : i < ids.length
    · have hdrop1 : ids.drop i = ids.get ⟨i, h1⟩ :: ids.drop (i + 1) := by
        simpa using List.drop_eq_getElem_cons h1
      by_cases h2 : i + 1 < ids.length
      · have hdrop2 : ids.drop (i + 1) = ids.get ⟨i + 1, h2⟩ :: ids.drop (i + 2) := by
          simpa using List.drop_eq_getElem_cons h2
        rw [mergeGo]
        rw [dif_pos h1, dif_pos h2, hdrop1, hdrop2, mergeSeq]
        by_cases hp : (ids.get ⟨i, h1⟩, ids.get ⟨i + 1, h2⟩) = pair
        · rw [if_pos hp, if_pos hp, ih ids (i + 2) (by omega)]
        · rw [if_neg hp, if_neg hp, ih ids (i + 1) (by omega), hdrop2]
      · have hi : i + 1 = ids.length := by omega
        have hdrop2 : ids.drop (i + 1) = [] := List.drop_eq_nil_of_le (by omega)
        rw [mergeGo]
        rw [dif_pos h1, dif_neg h2, hdrop1, hdrop2, ih ids (i + 1) (by omega), hdrop2]
        rfl
    · have hle : ids.length ≤ i := by omega
      rw [mergeGo]
      simp [Nat.not_lt.mpr hle, List.drop_eq_nil_of_le hle, mergeSeq]

/-- The two renderings of `_merge` agree. -/
lemma mergeGo_eq_mergeSeq (ids : List Nat) (pair : Nat × Nat) (idx : Nat) :
    mergeGo ids pair idx 0 = mergeSeq ids pair idx := by
  simpa using mergeGo_eq_mergeSeq_drop pair idx ids.length ids 0 (by omega)

/-- C4.  The loop of `_merge` scans left to right: with at least two elements
left it emits `idx` and advances by 2 exactly on a match of `pair`, otherwise
it emits the current element and advances by 1; a singleton or empty remainder
is emitted as is; matches are non-overlapping and greedy, so `[97, 97, 97]`
with pair `(97, 97)` becomes the 2-element sequence `[idx, 97]`. -/
theorem merge_scan_spec :
    (∀ ids pair idx, mergeGo ids pair idx 0 = mergeSeq ids pair idx) ∧
    (∀ pair idx, mergeSeq [] pair idx = []) ∧
    (∀ a pair idx, mergeSeq [a] pair idx = [a]) ∧
    (∀ a b rest pair idx,
      mergeSeq (a :: b :: rest) pair idx =
        if (a, b) = pair then idx :: mergeSeq rest pair idx
        else a :: mergeSeq (b :: rest) pair idx) ∧
    (∀ idx, mergeGo [97, 97, 97] (97, 97) idx 0 = [idx, 97]) := by
  refine ⟨mergeGo_eq_mergeSeq, fun _ _ => rfl, fun _ _ _ => rfl, fun _ _ _ _ _ => rfl, ?_⟩
  intro idx
  rw [mergeGo_eq_mergeSeq]
  simp [mergeSeq]

/-! ## Training on an empty corpus (C8) and construction (C3) -/

lemma getStats_nil : getStats [] = [] := rfl

lemma trainGo_nil (n i : Nat) (merges : List ((Nat × Nat) × Nat))
    (vocab : List (Nat × List Nat)) : trainGo n i [] merges vocab = ([], merges, vocab) := by
  cases n <;> rfl

/-- C8.  Training on the empty corpus is not an error: no merge rules are
recorded, the vocabulary is exactly the 256 base single-byte entries, and the
returned symbol sequence is empty. -/
theorem train_empty_corpus (s : Nat) :
    (bpeInit s).train [] = (⟨s, [], baseVocab⟩, []) ∧ baseVocab.length = 256 := by
  constructor
  · show (let r := trainGo (s - 256) 0 [] [] baseVocab
      ((⟨s, r.2.1, r.2.2⟩ : BPETokenizer), r.1)) = _
    rw [trainGo_nil]
  · simp [baseVocab]

/-- C3 counterexample.  The source constructor performs no validation: at
`targetVocabSize = 100 < 256` construction succeeds (no `InvalidConfiguration`
error is raised), refuting the claim that it is rejected. -/
theorem bpe_init_small_succeeds :
    (bpeInitE 100).isOk = true ∧ 100 < 256 ∧
      bpeInitE 100 = Except.ok ⟨100, [], []⟩ := by
  exact ⟨rfl, by decide, rfl⟩

/-- C3 amended.  Construction with `targetVocabSize < 256` succeeds, returning
a tokenizer with empty merge table and vocabulary and no error; a subsequent
training run performs zero merges (the loop bound `vocab_size - 256` is empty)
and only resets the vocabulary to the 256 base entries. -/
theorem bpe_init_small_amended (s : Nat) (h : s < 256) (corpus : List Nat) :
    bpeInitE s = Except.ok ⟨s, [], []⟩ ∧
      (bpeInit s).train corpus = (⟨s, [], baseVocab⟩, corpus) := by
  refine ⟨rfl, ?_⟩
  show (let r := trainGo (s - 256) 0 corpus [] baseVocab
      ((⟨s, r.2.1, r.2.2⟩ : BPETokenizer), r.1)) = _
  have hz : s - 256 = 0 := by omega
  rw [hz]
  rfl

/-- Witness for `bpe_init_small_amended` at `s = 100`, corpus `[97, 98]`. -/
theorem bpe_init_small_amended_witness :
    bpeInitE 100 = Except.ok ⟨100, [], []⟩ ∧
      (bpeInit 100).train [97, 98] = (⟨100, [], baseVocab⟩, [97, 98]) :=
  bpe_init_small_amended 100 (by decide) [97, 98]

/-! ## Merge selection (C1) -/

/-- Python's `max` over a list with a key: the result splits the list into a
strict-prefix of strictly smaller keys and a suffix of no-larger keys, i.e. it
is the first element attaining the maximal key. -/
lemma foldl_max_first {β : Type} :
    ∀ (l : List (β × Nat)) (b : β × Nat),
      ∃ pre post,
        b :: l = pre ++ (l.foldl (fun best y => if best.2 < y.2 then y else best) b) :: post ∧
        (∀ q ∈ pre, q.2 < (l.foldl (fun best y => if best.2 < y.2 then y else best) b).2) ∧
        (∀ q ∈ post, q.2 ≤ (l.foldl (fun best y => if best.2 < y.2 then y else best) b).2) := by
  intro l
  induction l with
  | nil => exact fun b => ⟨[], [], rfl, by simp, by simp⟩
  | cons y l' ih =>
    intro b
    by_cases hy : b.2 < y.2
    · obtain ⟨pre, post, hdec, hpre, hpost⟩ := ih y
      rw [List.foldl_cons, if_pos hy]
      have hbr : b.2 < (l'.foldl (fun best y => if best.2 < y.2 then y else best) y).2 := by
        cases pre with
        | nil =>
          simp only [List.nil_append, List.cons.injEq] at hdec
          rw [← hdec.1]; exact hy
        | cons p pre' =>
          simp only [List.cons_append, List.cons.injEq] at hdec
          exact lt_trans hy (hpre y (by rw [hdec.1]; exact List.mem_cons_self _ _))
      refine ⟨b :: pre, post, ?_, ?_, hpost⟩
      · rw [List.cons_append, ← hdec]
      · intro q hq
        rcases List.mem_cons.mp hq with h | h
        · rw [h]; exact hbr
        · exact hpre q h
    · obtain ⟨pre, post, hdec, hpre, hpost⟩ := ih b
      rw [List.foldl_cons, if_neg hy]
      cases pre with
      | nil =>
        simp only [List.nil_append, List.cons.injEq] at hdec
        refine ⟨[], y :: post, ?_, by simp, ?_⟩
        · simp [← hdec.1, ← hdec.2]
        · intro q hq
          rcases List.mem_cons.mp hq with h | h
          · rw [h, ← hdec.1]; omega
          · exact hpost q h
      | cons p pre' =>
        simp only [List.cons_append, List.cons.injEq] at hdec
        have hb : b.2 < (l'.foldl (fun best y => if best.2 < y.2 then y else best) b).2 := by
          have hp := hpre p (List.mem_cons_self _ _)
          rwa [← hdec.1] at hp
        refine ⟨b :: y :: pre', post, ?_, ?_, hpost⟩
        · rw [List.cons_append, List.cons_append, ← hdec.2]
        · intro q hq
          rcases List.mem_cons.mp hq with h | h
          · rw [h]; exact hb
          · rcases List.mem_cons.mp h with h' | h'
            · rw [h']; omega
            · exact hpre q (List.mem_cons_of_mem _ h')

/-- The selection of `train` returns the first item of the insertion-ordered
counter attaining the maximal count. -/
lemma maxByCount_spec (stats : List ((Nat × Nat) × Nat)) (p : Nat × Nat) (c : Nat)
    (h : maxByCount stats = some (p, c)) :
    ∃ pre post, stats = pre ++ (p, c) :: post ∧
      (∀ q ∈ pre, q.2 < c) ∧ (∀ q ∈ post, q.2 ≤ c) := by
  match stats with
  | [] => simp [maxByCount] at h
  | x :: rest =>
    simp only [maxByCount, Option.some.injEq] at h
    obtain ⟨pre, post, hdec, hpre, hpost⟩ := foldl_max_first rest x
    rw [h] at hdec hpre hpost
    exact ⟨pre, post, hdec, hpre, hpost⟩

lemma maxByCount_mem {stats : List ((Nat × Nat) × Nat)} {p : Nat × Nat} {c : Nat}
    (h : maxByCount stats = some (p, c)) : (p, c) ∈ stats := by
  obtain ⟨pre, post, hdec, -, -⟩ := maxByCount_spec stats p c h
  rw [hdec]
  exact List.mem_append.mpr (Or.inr (List.mem_cons_self _ _))

lemma maxByCount_none_iff (stats : List ((Nat × Nat) × Nat)) :
    maxByCount stats = none ↔ stats = [] := by
  cases stats <;> simp [maxByCount]

/-- C1 counterexample.  On the concrete sequence `[98, 97, 97, 98]` all three
adjacent pairs tie at the maximal count 1, and the selection used by `train`
returns `(98, 97)` — the first-counted pair — although `(97, 97)` is present
and lexicographically smaller, refuting the claimed `(left, right)` tie-break. -/
theorem select_not_lex_smallest :
    getStats [98, 97, 97, 98] = [((98, 97), 1), ((97, 97), 1), ((97, 98), 1)] ∧
      maxByCount (getStats [98, 97, 97, 98]) = some ((98, 97), 1) ∧
      pairLexLt (97, 97) (98, 97) := by
  refine ⟨by decide, by decide, ?_⟩
  left; decide

/-- C1 amended.  The selection used by `train` returns `none` exactly on an
empty pair-count mapping (and the training loop then stops, leaving its state
unchanged); on a non-empty mapping it returns the first pair in the counter's
first-insertion order attaining the maximal count — when several pairs tie it
selects the earliest-counted one, not the lexicographically smallest. -/
theorem select_pair_spec :
    (∀ stats : List ((Nat × Nat) × Nat), maxByCount stats = none ↔ stats = []) ∧
    (∀ (stats : List ((Nat × Nat) × Nat)) p c, maxByCount stats = some (p, c) →
      ∃ pre post, stats = pre ++ (p, c) :: post ∧
        (∀ q ∈ pre, q.2 < c) ∧ (∀ q ∈ post, q.2 ≤ c)) ∧
    (∀ n i ids merges vocab, getStats ids = [] →
      trainGo (n + 1) i ids merges vocab = (ids, merges, vocab)) := by
  refine ⟨maxByCount_none_iff, maxByCount_spec, ?_⟩
  intro n i ids merges vocab h
  simp [trainGo, h, maxByCount]

/-- Witness for `select_pair_spec` at a concrete two-entry mapping and the
empty sequence. -/
theorem select_pair_spec_witness :
    (∃ pre post,
        [((97, 97), 2), ((97, 98), 1)] = pre ++ ((97, 97), 2) :: post ∧
        (∀ q ∈ pre, q.2 < 2) ∧ (∀ q ∈ post, q.2 ≤ 2)) ∧
      trainGo 1 0 [] [] [] = ([], [], []) :=
  ⟨select_pair_spec.2.1 [((97, 97), 2), ((97, 98), 1)] (97, 97) 2 rfl,
   select_pair_spec.2.2 0 0 [] [] [] rfl⟩

/-! ## Re-training (C2) -/

/-- The returned sequence and the rebuilt vocabulary of the training loop do
not depend on the incoming `merges` accumulator (it is write-only there). -/
lemma trainGo_indep_merges :
    ∀ (n i : Nat) (ids : List Nat) (vocab : List (Nat × List Nat))
      (m m' : List ((Nat × Nat) × Nat)),
      (trainGo n i ids m vocab).1 = (trainGo n i ids m' vocab).1 ∧
      (trainGo n i ids m vocab).2.2 = (trainGo n i ids m' vocab).2.2 := by
  intro n
  induction n with
  | zero => intro i ids vocab m m'; exact ⟨rfl, rfl⟩
  | succ n ih =>
    intro i ids vocab m m'
    show (match maxByCount (getStats ids) with
      | none => (ids, m, vocab)
      | some (pair, _) => _).1 = _ ∧ _
    cases hmax : maxByCount (getStats ids) with
    | none => simp [trainGo, hmax]
    | some x =>
      obtain ⟨pair, c⟩ := x
      simp only [trainGo, hmax]
      exact ih (i + 1) (mergeSeq ids pair (256 + i)) _ _ _

/-- C2 counterexample.  Training a fresh tokenizer on `[97, 97]` and then
re-training it on `[98, 98]` leaves the rule `((97, 97), 256)` from the first
corpus in the merge table, so the merge table differs from that of a fresh
tokenizer trained only on `[98, 98]`: `train` never resets `self.merges`. -/
theorem retrain_keeps_old_merges :
    (((bpeInit 257).train [97, 97]).fst.train [98, 98]).fst.merges =
        [((97, 97), 256), ((98, 98), 256)] ∧
      ((bpeInit 257).train [98, 98]).fst.merges = [((98, 98), 256)] ∧
      (((bpeInit 257).train [97, 97]).fst.train [98, 98]).fst.merges ≠
        ((bpeInit 257).train [98, 98]).fst.merges := by
  refine ⟨by decide, by decide, by decide⟩

/-- C2 amended.  Re-training fully re-derives the vocabulary and the returned
symbol sequence — they equal those of a fresh tokenizer of the same
`targetVocabSize` trained only on the second corpus — but the merge table is
not reset: rules recorded for earlier corpora persist in it. -/
theorem retrain_rederives_vocab_not_merges (tk : BPETokenizer) (c1 c2 : List Nat) :
    ((tk.train c1).fst.train c2).fst.vocab = ((bpeInit tk.vocab_size).train c2).fst.vocab ∧
      ((tk.train c1).fst.train c2).snd = ((bpeInit tk.vocab_size).train c2).snd ∧
      ((tk.train c1).fst.train c2).fst.vocab_size =
        ((bpeInit tk.vocab_size).train c2).fst.vocab_size := by
  refine ⟨?_, ?_, rfl⟩
  · exact (trainGo_indep_merges (tk.vocab_size - 256) 0 c2 baseVocab
      (tk.train c1).fst.merges []).2
  · exact (trainGo_indep_merges (tk.vocab_size - 256) 0 c2 baseVocab
      (tk.train c1).fst.merges []).1

/-! ## Pair counting (C9) -/

lemma counterGet_nil (p : Nat × Nat) : counterGet [] p = 0 := rfl

lemma counterGet_cons (k : Nat × Nat) (n : Nat) (rest : List ((Nat × Nat) × Nat))
    (p : Nat × Nat) :
    counterGet ((k, n) :: rest) p = if k = p then n else counterGet rest p := by
  by_cases h : k = p <;> simp [counterGet, dictFind?, h]

lemma counterGet_counterAdd (c : List ((Nat × Nat) × Nat)) (p q : Nat × Nat) :
    counterGet (counterAdd c q) p = counterGet c p + if p = q then 1 else 0 := by
  induction c with
  | nil =>
    show counterGet [(q, 1)] p = counterGet [] p + if p = q then 1 else 0
    rw [counterGet_cons, counterGet_nil]
    by_cases h : p = q
    · rw [if_pos h.symm, if_pos h]
    · rw [if_neg (fun hc => h hc.symm), if_neg h]
  | cons x rest ih =>
    obtain ⟨q', n⟩ := x
    by_cases hq : q' = q
    · subst hq
      have hadd : counterAdd ((q', n) :: rest) q' = (q', n + 1) :: rest := by
        simp [counterAdd]
      rw [hadd, counterGet_cons, counterGet_cons]
      split_ifs with h1 h2 h2
      · omega
      · exact absurd h1.symm h2
      · exact absurd h2.symm h1
      · omega
    · have hadd : counterAdd ((q', n) :: rest) q = (q', n) :: counterAdd rest q := by
        simp [counterAdd, hq]
      rw [hadd, counterGet_cons, counterGet_cons]
      by_cases hp : q' = p
      · rw [if_pos hp, if_pos hp, if_neg (fun hc => hq (hp.trans hc))]
        omega
      · rw [if_neg hp, if_neg hp, ih]

lemma counterGet_foldl (l : List (Nat × Nat)) :
    ∀ (c : List ((Nat × Nat) × Nat)) (p : Nat × Nat),
      counterGet (l.foldl counterAdd c) p = counterGet c p + l.count p := by
  induction l with
  | nil => intro c p; simp
  | cons q l' ih =>
    intro c p
    rw [List.foldl_cons, ih, counterGet_counterAdd, List.count_cons]
    by_cases h : p = q
    · have h1 : (q == p) = true := by simp [h.symm]
      rw [if_pos h, if_pos h1]
      omega
    · have h1 : ¬ ((q == p) = true) := by simp; exact fun hc => h hc.symm
      rw [if_neg h, if_neg h1]
      omega

lemma counterGet_getStats (ids : List Nat) (p : Nat × Nat) :
    counterGet (getStats ids) p = (zipPairs ids).count p := by
  rw [getStats, counterGet_foldl, counterGet_nil, Nat.zero_add]

lemma zipPairs_cons₂ (a b : Nat) (t : List Nat) :
    zipPairs (a :: b :: t) = (a, b) :: zipPairs (b :: t) := rfl

lemma adjPositions_length_cons (a : Nat) (ids : List Nat) (p : Nat × Nat) (h : ids ≠ []) :
    (adjPositions (a :: ids) p).length =
      (if a = p.1 ∧ ids.get? 0 = some p.2 then 1 else 0) + (adjPositions ids p).length := by
  unfold adjPositions
  rw [← List.countP_eq_length_filter, ← List.countP_eq_length_filter]
  have hlen : (a :: ids).length - 1 = (ids.length - 1) + 1 := by
    cases ids with
    | nil => exact absurd rfl h
    | cons b t => simp
  rw [hlen, List.range_succ_eq_map, List.countP_cons, List.countP_map]
  have hcomp :
      ((fun i => decide ((a :: ids).get? i = some p.1 ∧ (a :: ids).get? (i + 1) = some p.2))
        ∘ Nat.succ) =
      (fun i => decide (ids.get? i = some p.1 ∧ ids.get? (i + 1) = some p.2)) := by
    funext i
    rfl
  rw [hcomp]
  have h0 : (decide ((a :: ids).get? 0 = some p.1 ∧ (a :: ids).get? (0 + 1) = some p.2) = true)
      ↔ (a = p.1 ∧ ids.get? 0 = some p.2) := by
    simp
  by_cases hc : a = p.1 ∧ ids.get? 0 = some p.2
  · rw [if_pos (h0.mpr hc), if_pos hc]
    omega
  · rw [if_neg (fun hx => hc (h0.mp hx)), if_neg hc]
    omega

lemma count_zipPairs_eq_adjPositions (p : Nat × Nat) :
    ∀ ids : List Nat, (zipPairs ids).count p = (adjPositions ids p).length := by
  apply list_pair_induction
  · rfl
  · intro a; rfl
  · intro a b t ihr ih
    rw [zipPairs_cons₂, List.count_cons, ih,
      adjPositions_length_cons a (b :: t) p (by simp)]
    have hiff : (a = p.1 ∧ (b :: t).get? 0 = some p.2) ↔ (a, b) = p := by
      rw [Prod.ext_iff]
      simp [eq_comm]
    by_cases hc : (a, b) = p
    · have h1 : ((a, b) == p) = true := by simp [hc]
      rw [if_pos h1, if_pos (hiff.mpr hc)]
      omega
    · have h1 : ¬ (((a, b) == p) = true) := by simp [hc]
      rw [if_neg h1, if_neg (fun hx => hc (hiff.mp hx))]
      omega

/-- C9.  The pair-counting step maps each pair `(a, b)` to the number of
adjacent index positions `(i, i + 1)` with `sequence[i] = a` and
`sequence[i+1] = b` (so no counted pair spans non-adjacent positions), and a
sequence of length below 2 yields an empty mapping. -/
theorem pair_counting_spec :
    (∀ (ids : List Nat) (p : Nat × Nat),
      counterGet (getStats ids) p = (adjPositions ids p).length) ∧
    (∀ ids : List Nat, ids.length < 2 → getStats ids = []) := by
  constructor
  · intro ids p
    rw [counterGet_getStats]
    exact count_zipPairs_eq_adjPositions p ids
  · intro ids h
    match ids with
    | [] => rfl
    | [a] => rfl
    | a :: b :: t => simp at h; omega

/-- Witness for `pair_counting_spec`: a concrete count and a singleton input. -/
theorem pair_counting_spec_witness :
    counterGet (getStats [97, 98, 97, 98]) (97, 98) =
        (adjPositions [97, 98, 97, 98] (97, 98)).length ∧
      getStats [97] = [] :=
  ⟨pair_counting_spec.1 [97, 98, 97, 98] (97, 98),
   pair_counting_spec.2 [97] (by decide)⟩

/-! ## Structural lemmas about `mergeSeq`, `zipPairs`, `expand` and the dicts -/

lemma mergeSeq_cons₂ (a b : Nat) (rest : List Nat) (pair : Nat × Nat) (idx : Nat) :
    mergeSeq (a :: b :: rest) pair idx =
      if (a, b) = pair then idx :: mergeSeq rest pair idx
      else a :: mergeSeq (b :: rest) pair idx := rfl

lemma head?_mergeSeq (x : Nat) (xs : List Nat) (pair : Nat × Nat) (idx : Nat) :
    (mergeSeq (x :: xs) pair idx).head? = some idx ∨
      (mergeSeq (x :: xs) pair idx).head? = some x := by
  match xs with
  | [] => right; rfl
  | b :: rest =>
    rw [mergeSeq_cons₂]
    split_ifs
    · left; rfl
    · right; rfl

lemma mem_mergeSeq {a : Nat} (pair : Nat × Nat) (idx : Nat) :
    ∀ ids, a ∈ mergeSeq ids pair idx → a = idx ∨ a ∈ ids := by
  apply list_pair_induction
  · intro h; simp [mergeSeq] at h
  · intro x h
    simp only [mergeSeq, List.mem_singleton] at h
    right; simp [h]
  · intro x y rest ihr ihy h
    rw [mergeSeq_cons₂] at h
    split_ifs at h with hp
    · rcases List.mem_cons.mp h with h1 | h1
      · left; exact h1
      · rcases ihr h1 with h2 | h2
        · left; exact h2
        · right; exact List.mem_cons_of_mem _ (List.mem_cons_of_mem _ h2)
    · rcases List.mem_cons.mp h with h1 | h1
      · right; rw [h1]; exact List.mem_cons_self _ _
      · rcases ihy h1 with h2 | h2
        · left; exact h2
        · right; exact List.mem_cons_of_mem _ h2

lemma zipPairs_subset_cons (h : Nat) (t : List Nat) {p : Nat × Nat}
    (hp : p ∈ zipPairs t) : p ∈ zipPairs (h :: t) := by
  cases t with
  | nil => simp [zipPairs] at hp
  | cons b t' => exact List.mem_cons_of_mem _ hp

lemma zipPairs_cons_mem {x : Nat} {M : List Nat} {p : Nat × Nat}
    (h : p ∈ zipPairs (x :: M)) :
    (∃ m0, M.head? = some m0 ∧ p = (x, m0)) ∨ p ∈ zipPairs M := by
  cases M with
  | nil => simp [zipPairs] at h
  | cons m0 M' =>
    rcases List.mem_cons.mp h with h1 | h1
    · left; exact ⟨m0, rfl, h1⟩
    · right; exact h1

lemma mem_zipPairs_comps {p : Nat × Nat} {ids : List Nat}
    (h : p ∈ zipPairs ids) : p.1 ∈ ids ∧ p.2 ∈ ids := by
  have h' : p ∈ ids.zip ids.tail := h
  obtain ⟨p1, p2⟩ := p
  have hz := List.of_mem_zip h'
  exact ⟨hz.1, List.mem_of_mem_tail hz.2⟩

/-- Lemma A: a single merge pass removes every adjacent occurrence of the
merged pair, provided the fresh id differs from both components. -/
lemma not_mem_zipPairs_mergeSeq (l r idx : Nat) (hl : idx ≠ l) (hr : idx ≠ r) :
    ∀ ids, (l, r) ∉ zipPairs (mergeSeq ids (l, r) idx) := by
  apply list_pair_induction
  · intro h; simp [mergeSeq, zipPairs] at h
  · intro a h; simp [mergeSeq, zipPairs] at h
  · intro a b rest ihr ihb h
    rw [mergeSeq_cons₂] at h
    split_ifs at h with hp
    · rcases zipPairs_cons_mem h with ⟨m0, hm0, hpair⟩ | h1
      · exact hl (congrArg Prod.fst hpair).symm
      · exact ihr h1
    · rcases zipPairs_cons_mem h with ⟨m0, hm0, hpair⟩ | h1
      · have ha : l = a := congrArg Prod.fst hpair
        have hm : r = m0 := congrArg Prod.snd hpair
        rcases head?_mergeSeq b rest (l, r) idx with hh | hh
        · rw [hm0] at hh
          exact hr (hm.trans (Option.some.injEq _ _ ▸ hh)).symm
        · rw [hm0] at hh
          have hb : m0 = b := Option.some.injEq _ _ ▸ hh
        
          exact hp (by rw [← ha, ← hb, ← hm])
      · exact ihb h1

/-- Lemma B: an adjacency of the merged sequence neither of whose components
is the fresh id was already an adjacency of the input sequence. -/
lemma mem_zipPairs_mergeSeq_reflect (l r idx x y : Nat) (hx : x ≠ idx) (hy : y ≠ idx) :
    ∀ ids, (x, y) ∈ zipPairs (mergeSeq ids (l, r) idx) → (x, y) ∈ zipPairs ids := by
  apply list_pair_induction
  · intro h; simp [mergeSeq, zipPairs] at h
  · intro a h; simp [mergeSeq, zipPairs] at h
  · intro a b rest ihr ihb h
    rw [mergeSeq_cons₂] at h
    split_ifs at h with hp
    · rcases zipPairs_cons_mem h with ⟨m0, hm0, hpair⟩ | h1
      · exact absurd (congrArg Prod.fst hpair) hx
      · exact zipPairs_subset_cons a _ (zipPairs_subset_cons b _ (ihr h1))
    · rcases zipPairs_cons_mem h with ⟨m0, hm0, hpair⟩ | h1
      · have hxa : x = a := congrArg Prod.fst hpair
        have hym : y = m0 := congrArg Prod.snd hpair
        rcases head?_mergeSeq b rest (l, r) idx with hh | hh
        · rw [hm0] at hh
          exact absurd (hym.trans (Option.some.injEq _ _ ▸ hh)) hy
        · rw [hm0] at hh
          have hb : m0 = b := Option.some.injEq _ _ ▸ hh
          rw [zipPairs_cons₂, hxa, hym, hb]
          exact List.mem_cons_self _ _
      · exact zipPairs_subset_cons a _ (ihb h1)

lemma expand_cons (v : List (Nat × List Nat)) (a : Nat) (t : List Nat) :
    expand v (a :: t) = vocabGet v a ++ expand v t := rfl

/-- A merge pass preserves the byte expansion when the fresh id expands to the
concatenation of the expansions of the pair's components. -/
lemma expand_mergeSeq (v : List (Nat × List Nat)) (l r idx : Nat)
    (h : vocabGet v idx = vocabGet v l ++ vocabGet v r) :
    ∀ ids, expand v (mergeSeq ids (l, r) idx) = expand v ids := by
  apply list_pair_induction
  · rfl
  · intro a; rfl
  · intro a b rest ihr ihb
    rw [mergeSeq_cons₂]
    split_ifs with hp
    · have ha : a = l := (congrArg Prod.fst hp :)
      have hb : b = r := (congrArg Prod.snd hp :)
      rw [expand_cons, ihr, h, expand_cons, expand_cons, ha, hb, List.append_assoc]
    · rw [expand_cons, ihb, expand_cons, expand_cons, expand_cons]

lemma expand_congr (v v' : List (Nat × List Nat)) :
    ∀ ids : List Nat, (∀ a ∈ ids, vocabGet v' a = vocabGet v a) →
      expand v' ids = expand v ids := by
  intro ids
  induction ids with
  | nil => intro _; rfl
  | cons a t ih =>
    intro h
    rw [expand_cons, expand_cons, h a (List.mem_cons_self _ _),
      ih (fun b hb => h b (List.mem_cons_of_mem _ hb))]

lemma dictFind?_eq_none {α β : Type} [DecidableEq α] (d : List (α × β)) (k : α) :
    dictFind? d k = none ↔ k ∉ d.map Prod.fst := by
  induction d with
  | nil => simp [dictFind?]
  | cons x rest ih =>
    obtain ⟨k', v⟩ := x
    by_cases h : k' = k
    · subst h
      simp [dictFind?]
    · have hstep : dictFind? ((k', v) :: rest) k = dictFind? rest k := by
        simp [dictFind?, h]
      rw [hstep, ih]
      simp only [List.map_cons, List.mem_cons, not_or]
      constructor
      · intro hn; exact ⟨fun hc => h hc.symm, hn⟩
      · intro hn; exact hn.2

lemma dictInsert_of_not_mem {α β : Type} [DecidableEq α] (d : List (α × β)) (k : α)
    (v : β) (h : k ∉ d.map Prod.fst) : dictInsert d k v = d ++ [(k, v)] := by
  induction d with
  | nil => rfl
  | cons x rest ih =>
    obtain ⟨k', v'⟩ := x
    simp only [List.map_cons, List.mem_cons, not_or] at h
    have hne : ¬ k' = k := fun hc => h.1 hc.symm
    simp [dictInsert, hne, ih h.2]

lemma dictFind?_append_some {α β : Type} [DecidableEq α] {d1 : List (α × β)} {k : α}
    {v : β} (d2 : List (α × β)) (h : dictFind? d1 k = some v) :
    dictFind? (d1 ++ d2) k = some v := by
  induction d1 with
  | nil => simp [dictFind?] at h
  | cons x rest ih =>
    obtain ⟨k', v'⟩ := x
    by_cases hk : k' = k
    · simp only [dictFind?, if_pos hk] at h ⊢
      exact h
    · simp only [dictFind?, if_neg hk] at h ⊢
      exact ih h

lemma dictFind?_append_none {α β : Type} [DecidableEq α] {d1 : List (α × β)} {k : α}
    (d2 : List (α × β)) (h : dictFind? d1 k = none) :
    dictFind? (d1 ++ d2) k = dictFind? d2 k := by
  induction d1 with
  | nil => rfl
  | cons x rest ih =>
    obtain ⟨k', v'⟩ := x
    by_cases hk : k' = k
    · simp only [dictFind?, if_pos hk] at h
      exact (Option.some_ne_none v' h).elim
    · simp only [dictFind?, if_neg hk] at h ⊢
      exact ih h

lemma dictFind?_singleton {α β : Type} [DecidableEq α] (k k' : α) (v : β) :
    dictFind? [(k', v)] k = if k' = k then some v else none := rfl

/-- Appending a fresh entry leaves every other lookup unchanged and the fresh
key's lookup is the new value. -/
lemma dictFind?_append_fresh {α β : Type} [DecidableEq α] (d : List (α × β))
    (k0 : α) (v0 : β) (h : k0 ∉ d.map Prod.fst) (k : α) :
    dictFind? (d ++ [(k0, v0)]) k =
      if k0 = k then some v0 else dictFind? d k := by
  by_cases hk : k0 = k
  · subst hk
    rw [dictFind?_append_none _ ((dictFind?_eq_none d k0).mpr h), if_pos rfl]
    simp [dictFind?]
  · rw [if_neg hk]
    cases hfind : dictFind? d k with
    | none =>
      rw [dictFind?_append_none _ hfind, dictFind?_singleton, if_neg hk]
    | some v =>
      exact dictFind?_append_some _ hfind

lemma map_fst_range_map {β : Type} (f : Nat → β) (n : Nat) :
    ((List.range n).map (fun i => (i, f i))).map Prod.fst = List.range n := by
  rw [List.map_map]
  have hcomp : (Prod.fst ∘ fun i => (i, f i)) = fun i : Nat => i := rfl
  rw [hcomp]
  exact List.map_id _

lemma dictFind?_range_map {β : Type} (f : Nat → β) :
    ∀ n k, k < n →
      dictFind? ((List.range n).map (fun i => (i, f i))) k = some (f k) := by
  intro n
  induction n with
  | zero => intro k h; omega
  | succ n ih =>
    intro k h
    rw [List.range_succ, List.map_append]
    by_cases hk : k < n
    · exact dictFind?_append_some _ (ih k hk)
    · have hkn : k = n := by omega
      have hnone : dictFind? ((List.range n).map (fun i => (i, f i))) k = none := by
        rw [dictFind?_eq_none, map_fst_range_map, List.mem_range]
        omega
      rw [dictFind?_append_none _ hnone]
      simp [dictFind?, hkn]

lemma baseVocab_keys : baseVocab.map Prod.fst = List.range 256 :=
  map_fst_range_map (fun i => [i]) 256

lemma baseVocab_find {id : Nat} (h : id < 256) : dictFind? baseVocab id = some [id] :=
  dictFind?_range_map (fun i => [i]) 256 id h

lemma expand_baseVocab : ∀ corpus : List Nat, (∀ b ∈ corpus, b < 256) →
    expand baseVocab corpus = corpus := by
  intro corpus
  induction corpus with
  | nil => intro _; rfl
  | cons b t ih =>
    intro h
    rw [expand_cons, vocabGet, baseVocab_find (h b (List.mem_cons_self _ _)),
      Option.getD_some, ih (fun a ha => h a (List.mem_cons_of_mem _ ha))]
    rfl

lemma counterAdd_ne_nil (c : List ((Nat × Nat) × Nat)) (p : Nat × Nat) :
    counterAdd c p ≠ [] := by
  cases c with
  | nil => simp [counterAdd]
  | cons x rest =>
    obtain ⟨q, n⟩ := x
    rw [counterAdd]
    split_ifs <;> simp

lemma foldl_counterAdd_ne_nil (l : List (Nat × Nat)) :
    ∀ c, c ≠ [] → l.foldl counterAdd c ≠ [] := by
  induction l with
  | nil => intro c h; exact h
  | cons q l' ih =>
    intro c h
    rw [List.foldl_cons]
    exact ih _ (counterAdd_ne_nil c q)

lemma getStats_eq_nil_iff (ids : List Nat) : getStats ids = [] ↔ ids.length ≤ 1 := by
  match ids with
  | [] => simp [getStats, zipPairs]
  | [a] => simp [getStats, zipPairs]
  | a :: b :: t =>
    constructor
    · intro h
      have hne : getStats (a :: b :: t) ≠ [] := by
        rw [getStats, zipPairs_cons₂, List.foldl_cons]
        exact foldl_counterAdd_ne_nil _ _ (counterAdd_ne_nil [] (a, b))
      exact absurd h hne
    · intro h; simp at h

/-- The base case of the training invariant: a fresh training run. -/
lemma trainInv_init (corpus : List Nat) (h : ∀ b ∈ corpus, b < 256) :
    TrainInv corpus 0 corpus [] baseVocab where
  vkeys := baseVocab_keys
  vbase := fun _ hid => baseVocab_find hid
  idsLt := h
  mlen := rfl
  mrules := fun j m hm => by simp at hm
  mvocab := fun p idx hm => absurd hm (List.not_mem_nil _)
  mnotin := fun p idx hm => absurd hm (List.not_mem_nil _)
  mexp := expand_baseVocab corpus h

lemma counterAdd_key_mem {c : List ((Nat × Nat) × Nat)} {q p : Nat × Nat} {n : Nat}
    (h : (p, n) ∈ counterAdd c q) : p = q ∨ ∃ m, (p, m) ∈ c := by
  induction c with
  | nil =>
    simp only [counterAdd, List.mem_singleton] at h
    left
    exact (Prod.ext_iff.mp h).1
  | cons x rest ih =>
    obtain ⟨q', n'⟩ := x
    rw [counterAdd] at h
    split_ifs at h with hq
    · rcases List.mem_cons.mp h with h1 | h1
      · right
        refine ⟨n', ?_⟩
        rw [show p = q' from congrArg Prod.fst h1]
        exact List.mem_cons_self _ _
      · right
        exact ⟨n, List.mem_cons_of_mem _ h1⟩
    · rcases List.mem_cons.mp h with h1 | h1
      · right
        refine ⟨n', ?_⟩
        rw [show p = q' from congrArg Prod.fst h1]
        exact List.mem_cons_self _ _
      · rcases ih h1 with h2 | ⟨m, hm⟩
        · left; exact h2
        · right; exact ⟨m, List.mem_cons_of_mem _ hm⟩

lemma foldl_counterAdd_key_mem (l : List (Nat × Nat)) :
    ∀ (c : List ((Nat × Nat) × Nat)) (p : Nat × Nat) (n : Nat),
      (p, n) ∈ l.foldl counterAdd c → p ∈ l ∨ ∃ m, (p, m) ∈ c := by
  induction l with
  | nil => intro c p n h; right; exact ⟨n, h⟩
  | cons q l' ih =>
    intro c p n h
    rw [List.foldl_cons] at h
    rcases ih _ p n h with h1 | ⟨m, hm⟩
    · left; exact List.mem_cons_of_mem _ h1
    · rcases counterAdd_key_mem hm with h2 | ⟨m', hm'⟩
      · left; rw [h2]; exact List.mem_cons_self _ _
      · right; exact ⟨m', hm'⟩

lemma getStats_key_mem {ids : List Nat} {p : Nat × Nat} {n : Nat}
    (h : (p, n) ∈ getStats ids) : p ∈ zipPairs ids := by
  rcases foldl_counterAdd_key_mem _ [] p n h with h1 | ⟨m, hm⟩
  · exact h1
  · exact absurd hm (List.not_mem_nil _)

lemma mem_map_fst {α β : Type} (d : List (α × β)) (k : α) :
    k ∈ d.map Prod.fst ↔ ∃ v, (k, v) ∈ d := by
  constructor
  · intro h
    obtain ⟨x, hx, hfst⟩ := List.mem_map.mp h
    exact ⟨x.2, by rw [← hfst]; exact hx⟩
  · intro ⟨v, hv⟩
    exact List.mem_map.mpr ⟨(k, v), hv, rfl⟩

/-- The inductive step of the training invariant: one iteration of the loop,
merging the selected `pair` into the fresh id `256 + i`. -/
lemma trainStep_inv {corpus : List Nat} {i : Nat} {ids : List Nat}
    {merges : List ((Nat × Nat) × Nat)} {vocab : List (Nat × List Nat)}
    (inv : TrainInv corpus i ids merges vocab)
    {pair : Nat × Nat} {c : Nat}
    (hmax : maxByCount (getStats ids) = some (pair, c)) :
    TrainInv corpus (i + 1) (mergeSeq ids pair (256 + i))
      (dictInsert merges pair (256 + i))
      (dictInsert vocab (256 + i)
        (vocabGet vocab pair.1 ++ vocabGet vocab pair.2)) := by
  have hpzip : pair ∈ zipPairs ids := getStats_key_mem (maxByCount_mem hmax)
  have hcomps := mem_zipPairs_comps hpzip
  have hl : pair.1 < 256 + i := inv.idsLt pair.1 hcomps.1
  have hr : pair.2 < 256 + i := inv.idsLt pair.2 hcomps.2
  have hfresh : (256 + i) ∉ vocab.map Prod.fst := by
    rw [inv.vkeys, List.mem_range]
    omega
  set w := vocabGet vocab pair.1 ++ vocabGet vocab pair.2 with hw_def
  have hvins : dictInsert vocab (256 + i) w = vocab ++ [(256 + i, w)] :=
    dictInsert_of_not_mem vocab (256 + i) w hfresh
  have hfind' := dictFind?_append_fresh vocab (256 + i) w hfresh
  have hget : ∀ k, k ≠ 256 + i →
      vocabGet (vocab ++ [(256 + i, w)]) k = vocabGet vocab k := by
    intro k hk
    rw [vocabGet, vocabGet, hfind' k, if_neg (fun hc => hk hc.symm)]
  have hpairfresh : pair ∉ merges.map Prod.fst := by
    intro hc
    obtain ⟨v, hv⟩ := (mem_map_fst merges pair).mp hc
    exact inv.mnotin pair v hv hpzip
  have hmins : dictInsert merges pair (256 + i) = merges ++ [(pair, 256 + i)] :=
    dictInsert_of_not_mem merges pair (256 + i) hpairfresh
  -- bounds on the components of any recorded rule, via its position
  have hold : ∀ p idx, (p, idx) ∈ merges →
      idx < 256 + i ∧ p.1 < 256 + i ∧ p.2 < 256 + i := by
    intro p idx hmem
    obtain ⟨j, hj⟩ := List.get?_of_mem hmem
    have hjlt : j < merges.length := (List.get?_eq_some.mp hj).1
    have hrule := inv.mrules j (p, idx) hj
    have hji : j < i := by rw [inv.mlen] at hjlt; exact hjlt
    refine ⟨?_, ?_, ?_⟩
    · have := hrule.1; simp only at this; omega
    · have := hrule.2.1; simp only at this; omega
    · have := hrule.2.2; simp only at this; omega
  rw [hvins, hmins]
  constructor
  case vkeys =>
    rw [List.map_append, inv.vkeys]
    show List.range (256 + i) ++ [(256 + i, w).1] = List.range (256 + (i + 1))
    show List.range (256 + i) ++ [256 + i] = List.range (256 + (i + 1))
    rw [show 256 + (i + 1) = (256 + i) + 1 from rfl, List.range_succ]
  case vbase =>
    intro id hid
    rw [hfind' id, if_neg (by omega)]
    exact inv.vbase id hid
  case idsLt =>
    intro a ha
    rcases mem_mergeSeq pair (256 + i) ids ha with h1 | h1
    · omega
    · have := inv.idsLt a h1; omega
  case mlen =>
    rw [List.length_append, inv.mlen]
    rfl
  case mrules =>
    intro j m hj
    by_cases hjlt : j < merges.length
    · exact inv.mrules j m (by rw [← List.get?_append hjlt]; exact hj)
    · by_cases hjeq : j = merges.length
      · subst hjeq
        rw [List.get?_concat_length] at hj
        have hm : m = (pair, 256 + i) := by injection hj with h'; exact h'.symm
        subst hm
        rw [inv.mlen]
        exact ⟨rfl, hl, hr⟩
      · have : (merges ++ [(pair, 256 + i)]).get? j = none := by
          rw [List.get?_eq_none]
          simp only [List.length_append, List.length_singleton]
          omega
        rw [this] at hj
        exact Option.noConfusion hj
  case mvocab =>
    intro p idx hmem
    rcases List.mem_append.mp hmem with hmem | hmem
    · obtain ⟨hidx, hp1, hp2⟩ := hold p idx hmem
      rw [hfind' idx, if_neg (by omega), hget p.1 (by omega), hget p.2 (by omega)]
      exact inv.mvocab p idx hmem
    · have hpm : p = pair ∧ idx = 256 + i := by
        rcases List.mem_singleton.mp hmem with h'
        exact ⟨(Prod.ext_iff.mp h').1, (Prod.ext_iff.mp h').2⟩
      rw [hpm.1, hpm.2, hfind' (256 + i), if_pos rfl,
        hget pair.1 (by omega), hget pair.2 (by omega)]
  case mnotin =>
    intro p idx hmem
    rcases List.mem_append.mp hmem with hmem | hmem
    · obtain ⟨hidx, hp1, hp2⟩ := hold p idx hmem
      intro hin
      have hrefl := mem_zipPairs_mergeSeq_reflect pair.1 pair.2 (256 + i) p.1 p.2
        (by omega) (by omega) ids hin
      exact inv.mnotin p idx hmem hrefl
    · have hpm : p = pair := by
        rcases List.mem_singleton.mp hmem with h'
        exact (Prod.ext_iff.mp h').1
      rw [hpm]
      exact not_mem_zipPairs_mergeSeq pair.1 pair.2 (256 + i) (by omega) (by omega) ids
  case mexp =>
    have hwv : vocabGet (vocab ++ [(256 + i, w)]) (256 + i) =
        vocabGet (vocab ++ [(256 + i, w)]) pair.1 ++
          vocabGet (vocab ++ [(256 + i, w)]) pair.2 := by
      rw [vocabGet, hfind' (256 + i), if_pos rfl, Option.getD_some,
        hget pair.1 (by omega), hget pair.2 (by omega)]
    rw [expand_mergeSeq _ pair.1 pair.2 (256 + i) hwv ids]
    rw [expand_congr vocab _ ids (fun a ha => hget a (by have := inv.idsLt a ha; omega))]
    exact inv.mexp

/-- Running the training loop from any state satisfying the invariant performs
some number `k ≤ fuel` of iterations, re-establishes the invariant at `i + k`,
and stops early (with fuel remaining) only when the working sequence has
collapsed to length at most 1. -/
lemma trainGo_inv (corpus : List Nat) :
    ∀ (n i : Nat) (ids : List Nat) (merges : List ((Nat × Nat) × Nat))
      (vocab : List (Nat × List Nat)),
      TrainInv corpus i ids merges vocab →
      ∃ k, k ≤ n ∧
        TrainInv corpus (i + k) (trainGo n i ids merges vocab).1
          (trainGo n i ids merges vocab).2.1 (trainGo n i ids merges vocab).2.2 ∧
        (k < n → (trainGo n i ids merges vocab).1.length ≤ 1) := by
  intro n
  induction n with
  | zero =>
    intro i ids merges vocab inv
    exact ⟨0, le_rfl, inv, fun h => absurd h (by omega)⟩
  | succ n ih =>
    intro i ids merges vocab inv
    cases hmax : maxByCount (getStats ids) with
    | none =>
      have heq : trainGo (n + 1) i ids merges vocab = (ids, merges, vocab) := by
        simp [trainGo, hmax]
      refine ⟨0, by omega, ?_, ?_⟩
      · rw [heq]; exact inv
      · intro _
        rw [heq, ← getStats_eq_nil_iff]
        exact (maxByCount_none_iff _).mp hmax
    | some x =>
      obtain ⟨pair, c⟩ := x
      have hstep : trainGo (n + 1) i ids merges vocab =
          trainGo n (i + 1) (mergeSeq ids pair (256 + i))
            (dictInsert merges pair (256 + i))
            (dictInsert vocab (256 + i)
              (vocabGet vocab pair.1 ++ vocabGet vocab pair.2)) := by
        simp [trainGo, hmax]
      obtain ⟨k, hk, hinv, hstop⟩ := ih (i + 1) _ _ _ (trainStep_inv inv hmax)
      refine ⟨k + 1, by omega, ?_, ?_⟩
      · rw [hstep, show i + (k + 1) = (i + 1) + k from by omega]
        exact hinv
      · intro hlt
        rw [hstep]
        exact hstop (by omega)

/-- C5.  After a completed training run on a fresh tokenizer: every base id
`0 ≤ id < 256` maps to its single-byte sequence `[id]`; every merge-created id
maps to the concatenation of the vocabulary entries of the pair that created
it (those entries being unchanged since creation, as the vocabulary only ever
appends); and the vocabulary keys are exactly `0, …, 255 + mergeCount` — no
entry is removed or overwritten during the run. -/
theorem vocab_invariant_after_train (s : Nat) (corpus : List Nat)
    (h : ∀ b ∈ corpus, b < 256) :
    (∀ id, id < 256 →
      dictFind? ((bpeInit s).train corpus).fst.vocab id = some [id]) ∧
    (∀ p idx, (p, idx) ∈ ((bpeInit s).train corpus).fst.merges →
      dictFind? ((bpeInit s).train corpus).fst.vocab idx =
        some (vocabGet ((bpeInit s).train corpus).fst.vocab p.1 ++
          vocabGet ((bpeInit s).train corpus).fst.vocab p.2)) ∧
    ((bpeInit s).train corpus).fst.vocab.map Prod.fst =
      List.range (256 + ((bpeInit s).train corpus).fst.merges.length) := by
  obtain ⟨k, hk, hinv, hstop⟩ :=
    trainGo_inv corpus (s - 256) 0 corpus [] baseVocab (trainInv_init corpus h)
  refine ⟨hinv.vbase, hinv.mvocab, ?_⟩
  have hkeys := hinv.vkeys
  rw [← hinv.mlen] at hkeys
  exact hkeys

/-- Witness for `vocab_invariant_after_train` at `targetVocabSize = 257` and
corpus `[97, 97]` (one merge, creating id 256 from the pair `(97, 97)`). -/
theorem vocab_invariant_after_train_witness :
    dictFind? ((bpeInit 257).train [97, 97]).fst.vocab 97 = some [97] ∧
      dictFind? ((bpeInit 257).train [97, 97]).fst.vocab 256 =
        some (vocabGet ((bpeInit 257).train [97, 97]).fst.vocab 97 ++
          vocabGet ((bpeInit 257).train [97, 97]).fst.vocab 97) ∧
      ((bpeInit 257).train [97, 97]).fst.vocab.map Prod.fst =
        List.range (256 + ((bpeInit 257).train [97, 97]).fst.merges.length) :=
  ⟨(vocab_invariant_after_train 257 [97, 97] (by decide)).1 97 (by decide),
   (vocab_invariant_after_train 257 [97, 97] (by decide)).2.1 (97, 97) 256 (by decide),
   (vocab_invariant_after_train 257 [97, 97] (by decide)).2.2⟩

/-- C6.  For a trained (fresh) tokenizer, the `j`-th recorded merge rule has
`newId = 256 + j` — so the `newId` sequence is strictly increasing starting at
256, the id of iteration `j` being exactly `256 + j` — and both components of
its pair are smaller than `256 + j`, i.e. they already had vocabulary entries
(whose keys were exactly `0, …, 255 + j`) when the rule was recorded. -/
theorem merge_table_monotonic (s : Nat) (corpus : List Nat)
    (h : ∀ b ∈ corpus, b < 256) :
    ∀ j m, ((bpeInit s).train corpus).fst.merges.get? j = some m →
      m.2 = 256 + j ∧ m.1.1 < 256 + j ∧ m.1.2 < 256 + j := by
  obtain ⟨k, hk, hinv, hstop⟩ :=
    trainGo_inv corpus (s - 256) 0 corpus [] baseVocab (trainInv_init corpus h)
  exact hinv.mrules

/-- Witness for `merge_table_monotonic`: the sole rule of the run on `[97, 97]`
with `targetVocabSize = 257` is `((97, 97), 256)` at position 0. -/
theorem merge_table_monotonic_witness :
    (((97, 97), 256) : (Nat × Nat) × Nat).2 = 256 + 0 ∧
      (((97, 97), 256) : (Nat × Nat) × Nat).1.1 < 256 + 0 ∧
      (((97, 97), 256) : (Nat × Nat) × Nat).1.2 < 256 + 0 :=
  merge_table_monotonic 257 [97, 97] (by decide) 0 ((97, 97), 256) (by decide)

/-- C7.  After training a fresh tokenizer, the number of recorded merge rules
is at most `targetVocabSize - 256`, and if it is strictly smaller then the run
stopped early because no adjacent pair remained: the final symbol sequence has
length at most 1.  Stopping early is a valid outcome, not an error. -/
theorem merge_count_bound (s : Nat) (corpus : List Nat)
    (h : ∀ b ∈ corpus, b < 256) :
    ((bpeInit s).train corpus).fst.merges.length ≤ s - 256 ∧
      (((bpeInit s).train corpus).fst.merges.length < s - 256 →
        ((bpeInit s).train corpus).snd.length ≤ 1) := by
  obtain ⟨k, hk, hinv, hstop⟩ :=
    trainGo_inv corpus (s - 256) 0 corpus [] baseVocab (trainInv_init corpus h)
  have hlen : ((bpeInit s).train corpus).fst.merges.length = k := by
    have h' := hinv.mlen
    rw [Nat.zero_add] at h'
    exact h'
  constructor
  · rw [hlen]; exact hk
  · intro hlt
    rw [hlen] at hlt
    exact hstop hlt

/-- Witness for `merge_count_bound` at `targetVocabSize = 300`, corpus
`[97, 97]`: one merge is recorded (fewer than 44) and the sequence has
collapsed to the single symbol 256. -/
theorem merge_count_bound_witness :
    ((bpeInit 300).train [97, 97]).fst.merges.length ≤ 300 - 256 ∧
      ((bpeInit 300).train [97, 97]).snd.length ≤ 1 :=
  ⟨(merge_count_bound 300 [97, 97] (by decide)).1,
   (merge_count_bound 300 [97, 97] (by decide)).2 (by decide)⟩

/-- C10.  A merge pass preserves the byte expansion: if every id of the
sequence has a vocabulary entry, the pair's components expand to `wl` and
`wr`, and the fresh id (absent from the vocabulary) is inserted with entry
`wl ++ wr`, then expanding the merged sequence yields the same bytes as
expanding the original; consequently, after training a fresh tokenizer on a
byte corpus, expanding the returned symbol sequence through the learned
vocabulary reproduces the corpus exactly. -/
theorem merge_preserves_expansion :
    (∀ (vocab : List (Nat × List Nat)) (ids : List Nat) (l r idx : Nat)
      (wl wr : List Nat),
      dictFind? vocab idx = none →
      (∀ a ∈ ids, (dictFind? vocab a).isSome) →
      dictFind? vocab l = some wl →
      dictFind? vocab r = some wr →
      expand (dictInsert vocab idx (wl ++ wr)) (mergeSeq ids (l, r) idx) =
        expand vocab ids) ∧
    (∀ (s : Nat) (corpus : List Nat), (∀ b ∈ corpus, b < 256) →
      expand ((bpeInit s).train corpus).fst.vocab
        ((bpeInit s).train corpus).snd = corpus) := by
  constructor
  · intro vocab ids l r idx wl wr hfresh hids hl hr
    have hkey : idx ∉ vocab.map Prod.fst := (dictFind?_eq_none _ _).mp hfresh
    rw [dictInsert_of_not_mem _ _ _ hkey]
    have hfind' := dictFind?_append_fresh vocab idx (wl ++ wr) hkey
    have hget : ∀ k, k ≠ idx →
        vocabGet (vocab ++ [(idx, wl ++ wr)]) k = vocabGet vocab k := by
      intro k hk
      rw [vocabGet, vocabGet, hfind' k, if_neg (fun hc => hk hc.symm)]
    have hlne : l ≠ idx := by
      intro hc
      rw [hc, hfresh] at hl
      exact Option.noConfusion hl
    have hrne : r ≠ idx := by
      intro hc
      rw [hc, hfresh] at hr
      exact Option.noConfusion hr
    have hwv : vocabGet (vocab ++ [(idx, wl ++ wr)]) idx =
        vocabGet (vocab ++ [(idx, wl ++ wr)]) l ++
          vocabGet (vocab ++ [(idx, wl ++ wr)]) r := by
      rw [vocabGet, hfind' idx, if_pos rfl, Option.getD_some, hget l hlne,
        hget r hrne, vocabGet, hl, vocabGet, hr]
      rfl
    rw [expand_mergeSeq _ l r idx hwv ids]
    refine expand_congr vocab _ ids (fun a ha => hget a ?_)
    intro hc
    have hsome := hids a ha
    rw [hc, hfresh] at hsome
    exact Bool.noConfusion hsome
  · intro s corpus h
    obtain ⟨k, hk, hinv, hstop⟩ :=
      trainGo_inv corpus (s - 256) 0 corpus [] baseVocab (trainInv_init corpus h)
    exact hinv.mexp

/-- Witness for `merge_preserves_expansion`: a concrete one-pass merge over
`[97, 98]` and a concrete training run on `[97, 97, 98]`. -/
theorem merge_preserves_expansion_witness :
    expand (dictInsert [(97, [97]), (98, [98])] 256 ([97] ++ [98]))
        (mergeSeq [97, 98] (97, 98) 256) = expand [(97, [97]), (98, [98])] [97, 98] ∧
      expand ((bpeInit 257).train [97, 97, 98]).fst.vocab
        ((bpeInit 257).train [97, 97, 98]).snd = [97, 97, 98] :=
  ⟨merge_preserves_expansion.1 [(97, [97]), (98, [98])] [97, 98] 97 98 256 [97] [98]
      rfl (by decide) rfl rfl,
   merge_preserves_expansion.2 257 [97, 97, 98] (by decide)⟩
